import Mathlib

/-!
Verification of the resource-mapping and field-transformation engine of
`redmine2jira` (`redmine2jira/exporters/issues.py`), as a shallow embedding.

Modelling conventions:
* Python dictionaries with insertion order are association lists.
* Python `None` is `Option.none`; a possibly-absent dictionary key is an
  outer `Option` layer.
* External collaborators (the Redmine API client, `click` prompts,
  `text2confluence_wiki`, numeric parsing) are parameters of the embedded
  functions, exactly as the spec declares them out of scope.
* A Python statement that would raise (`KeyError`, unmet `IntRange`, ...)
  is an `Option`/`Except` failure value.
-/

namespace Redmine2Jira

/-! ## Custom field value projection

Embedding of `IssuesExporter._get_custom_field_value_mapping` and
`IssuesExporter._save_custom_fields` (issues.py lines 540-655) together with
the `ISSUE_CUSTOM_FIELD_TYPE_MAPPINGS` table (resources/mappings.py).
-/

/-- A raw Redmine custom field value as found on `custom_field.value`:
`None`, a scalar (modelled by its string form), or a list of scalars. -/
inductive RVal : Type where
  | null : RVal
  | str : String → RVal
  | list : List String → RVal
deriving DecidableEq, Repr

/-- Python truthiness of a raw value (`if redmine_value:`). -/
def RVal.truthy : RVal → Bool
  | .null => false
  | .str s => s ≠ ""
  | .list xs => !xs.isEmpty

/-- The projected Jira value.  Conversions delegated to external
collaborators (`isoformat`, `float`, `int`, `text2confluence_wiki`, the
resource resolver) are kept symbolic: the constructor records which
conversion ran on which raw value. -/
inductive JVal : Type where
  | raw : RVal → JVal
  | yes : JVal
  | no : JVal
  | dateIso : RVal → JVal
  | floatOf : RVal → JVal
  | intOf : RVal → JVal
  | wiki : RVal → JVal
  | userSingle : RVal → JVal
  | userMulti : RVal → JVal
  | versionSingle : RVal → JVal
  | versionMulti : RVal → JVal
deriving DecidableEq, Repr

/-- Errors of the custom-field projection: the explicit
`NotImplementedError` for an unsupported field format, and the `KeyError`
a missing dictionary key would raise in `_save_custom_fields`. -/
inductive CFError : Type where
  | unsupportedFormat : String → CFError
  | keyError : String → CFError
deriving DecidableEq, Repr

/-- The relevant parts of a Redmine custom field definition
(`self._issue_custom_fields[custom_field.id]`). -/
structure CFDef : Type where
  field_format : String
  multiple : Bool
deriving DecidableEq, Repr

/-- `IssuesExporter._get_custom_field_value_mapping` (issues.py 582-655).
`formattingEnabled` stands for `config.REDMINE_TEXT_FORMATTING != 'none'`. -/
def getCustomFieldValueMapping (formattingEnabled : Bool) (d : CFDef)
    (v : RVal) : Except CFError JVal :=
  if v.truthy then
    if d.field_format = "bool" then
      if v = RVal.str "1" then .ok .yes
      else if v = RVal.str "0" then .ok .no
      else .ok (.raw v)
    else if d.field_format = "date" then .ok (.dateIso v)
    else if d.field_format = "float" then .ok (.floatOf v)
    else if d.field_format = "int" then .ok (.intOf v)
    else if d.field_format = "text" ∨ d.field_format = "string" then
      if formattingEnabled then .ok (.wiki v) else .ok (.raw v)
    else if d.field_format = "user" then
      if d.multiple then .ok (.userMulti v) else .ok (.userSingle v)
    else if d.field_format = "version" then
      if d.multiple then .ok (.versionMulti v) else .ok (.versionSingle v)
    else if d.field_format = "link" ∨ d.field_format = "list" then
      .ok (.raw v)
    else .error (.unsupportedFormat d.field_format)
  else .ok (.raw v)

/-- The `ISSUE_CUSTOM_FIELD_TYPE_MAPPINGS` dictionary
(resources/mappings.py 157-192): field format to the Jira custom field
type, for single and (when defined) multiple values. -/
def issueCustomFieldTypeMappings (fmt : String) :
    Option (String × Option String) :=
  if fmt = "bool" then
    some ("com.atlassian.jira.plugin.system.customfieldtypes:select", none)
  else if fmt = "date" then
    some ("com.atlassian.jira.plugin.system.customfieldtypes:datepicker",
          none)
  else if fmt = "float" then
    some ("com.atlassian.jira.plugin.system.customfieldtypes:float", none)
  else if fmt = "int" then
    some ("com.atlassian.jira.plugin.system.customfieldtypes:float", none)
  else if fmt = "link" then
    some ("com.atlassian.jira.plugin.system.customfieldtypes:url", none)
  else if fmt = "list" then
    some ("com.atlassian.jira.plugin.system.customfieldtypes:select",
          some "com.atlassian.jira.plugin.system.customfieldtypes:multiselect")
  else if fmt = "text" then
    some ("com.atlassian.jira.plugin.system.customfieldtypes:textarea", none)
  else if fmt = "string" then
    some ("com.atlassian.jira.plugin.system.customfieldtypes:textfield",
          none)
  else if fmt = "user" then
    some ("com.atlassian.jira.plugin.system.customfieldtypes:userpicker",
          some ("com.atlassian.jira.plugin.system.customfieldtypes:" ++
                "multiuserpicker"))
  else if fmt = "version" then
    some ("com.atlassian.jira.plugin.system.customfieldtypes:version",
          some "com.atlassian.jira.plugin.system.customfieldtypes:multiversion")
  else none

/-- One issue custom field as `_save_custom_fields` consumes it: its
definition, its resolved Jira field name (the result of
`_get_custom_field_mapping`, an external resolver call here kept as data)
and its raw value. -/
structure CustomFieldIn : Type where
  defn : CFDef
  fieldName : String
  value : RVal
deriving DecidableEq, Repr

/-- One element of the `customFieldValues` list of an issue export
dictionary. -/
structure CFEntry : Type where
  fieldName : String
  fieldType : String
  value : JVal
deriving DecidableEq, Repr

/-- `IssuesExporter._save_custom_fields` (issues.py 540-571): for every
custom field, compute the Jira field type and projected value and append
an entry to `customFieldValues`.  The entry is appended unconditionally,
whatever the value is. -/
def saveCustomFields (formattingEnabled : Bool) :
    List CustomFieldIn → Except CFError (List CFEntry)
  | [] => .ok []
  | cf :: rest =>
    match issueCustomFieldTypeMappings cf.defn.field_format with
    | none => .error (.keyError cf.defn.field_format)
    | some (single, multi) =>
      match (if cf.defn.multiple then multi else some single) with
      | none => .error (.keyError "multiple")
      | some fieldType =>
        match getCustomFieldValueMapping formattingEnabled cf.defn cf.value
          with
        | .error e => .error e
        | .ok value =>
          match saveCustomFields formattingEnabled rest with
          | .error e => .error e
          | .ok entries =>
            .ok ({ fieldName := cf.fieldName, fieldType := fieldType,
                   value := value } :: entries)

/-! ## Assignee resolution

Embedding of `IssuesExporter._save_assigned_to` (issues.py 446-468).
-/

/-- Association-list lookup mirroring a Python dictionary access. -/
def alist.find {κ β : Type} [DecidableEq κ] (k : κ) :
    List (κ × β) → Option β
  | [] => none
  | (k', w) :: rest => if k' = k then some w else alist.find k rest

/-- `IssuesExporter._save_assigned_to`: if assignment to groups is allowed
and the assignee id is a known group, resolve through the group mapping,
otherwise through the user mapping.  `resolveGroup`/`resolveUser` stand
for `_get_assigned_to_mapping` on the respective dictionary entry; `none`
models the `KeyError` of `self._users[assigned_to.id]`. -/
def saveAssignedTo {G U W : Type} (allowGroups : Bool)
    (groups : List (Nat × G)) (users : List (Nat × U))
    (resolveGroup : G → W) (resolveUser : U → W) (assignedToId : Nat) :
    Option W :=
  if allowGroups ∧ (alist.find assignedToId groups).isSome then
    (alist.find assignedToId groups).map resolveGroup
  else
    (alist.find assignedToId users).map resolveUser

/-! ## Export document assembler

Embedding of `IssuesExporter._save_project` (issues.py 239-258) and the
issue append in `export` (issues.py 198).
-/

/-- A project bucket of the export document: resolved Jira project key and
the ordered list of issue documents. -/
structure ProjectBucket (K I : Type) : Type where
  key : K
  issues : List I
deriving DecidableEq, Repr

/-- `IssuesExporter._save_project`: look for a bucket with the resolved
key; when none exists, append a fresh bucket (with an empty issue list) at
the end of the projects list. -/
def saveProjectBucket {K I : Type} [DecidableEq K]
    (projects : List (ProjectBucket K I)) (k : K) :
    List (ProjectBucket K I) :=
  if projects.any (fun p => decide (p.key = k)) then projects
  else projects ++ [{ key := k, issues := [] }]

/-- `project_export['issues'].append(issue_export)` (issues.py 198): the
issue document is appended to the bucket `_save_project` returned, i.e.
the first bucket carrying the resolved key. -/
def appendIssueToBucket {K I : Type} [DecidableEq K] :
    List (ProjectBucket K I) → K → I → List (ProjectBucket K I)
  | [], _, _ => []
  | p :: rest, k, i =>
    if p.key = k then { p with issues := p.issues ++ [i] } :: rest
    else p :: appendIssueToBucket rest k i

/-- Per-issue effect of the export loop on the projects list: find or
create the bucket of the issue's resolved project key, then append the
issue document to it. -/
def processIssue {K I : Type} [DecidableEq K]
    (projects : List (ProjectBucket K I)) (ki : K × I) :
    List (ProjectBucket K I) :=
  appendIssueToBucket (saveProjectBucket projects ki.1) ki.1 ki.2

/-- The whole export loop, restricted to the projects-list state: issues
arrive in result-set order, each paired with its resolved project key. -/
def exportIssues {K I : Type} [DecidableEq K] (issues : List (K × I)) :
    List (ProjectBucket K I) :=
  issues.foldl processIssue []

/-- First-occurrence deduplication, used to state the first-seen order of
bucket keys. -/
def firstSeen {K : Type} [DecidableEq K] (l : List K) : List K :=
  l.foldl (fun acc k => if k ∈ acc then acc else acc ++ [k]) []

/-! ## Journal rebuild (reconstruction pass)

Embedding of `IssuesExporter._rebuild_journals` (issues.py 1063-1097).
-/

/-- A coalesced journal detail as it enters the rebuild: author, timestamp
and the remaining payload (property kind, old/new values), which the
rebuild copies verbatim. -/
structure RbItem (V : Type) : Type where
  user : Nat
  created : Nat
  payload : V
deriving DecidableEq, Repr

/-- A rebuilt journal: author and timestamp of the first detail
encountered for that timestamp, plus the list of `(property name,
payload)` details collected for it. -/
structure RbJournal (V : Type) : Type where
  user : Nat
  created : Nat
  details : List (String × V)
deriving DecidableEq, Repr

/-- One step of `_rebuild_journals`: find the journal with the item's
`created_on` and append the detail to it, else append a new journal at
the end of the list. -/
def addRbDetail {V : Type} :
    List (RbJournal V) → Nat → Nat → String × V → List (RbJournal V)
  | [], u, c, d => [{ user := u, created := c, details := [d] }]
  | j :: js, u, c, d =>
    if j.created = c then { j with details := j.details ++ [d] } :: js
    else j :: addRbDetail js u c d

/-- `IssuesExporter._rebuild_journals`: fold the per-property coalesced
details (a dictionary in insertion order) into a list of journals grouped
by `created_on`. -/
def rebuildJournals {V : Type} (m : List (String × List (RbItem V))) :
    List (RbJournal V) :=
  m.foldl
    (fun js pi =>
      pi.2.foldl
        (fun js it => addRbDetail js it.user it.created (pi.1, it.payload))
        js)
    []

/-- The details belonging to timestamp `c`, in dictionary iteration
order: used to characterise which details a rebuilt journal holds. -/
def detailsAt {V : Type} (m : List (String × List (RbItem V))) (c : Nat) :
    List (String × V) :=
  m.foldr
    (fun pi acc =>
      ((pi.2.filter (fun it => decide (it.created = c))).map
        (fun it => (pi.1, it.payload))) ++ acc)
    []

/-! ## Journal detail ordering within an event

Embedding of the double sort in `IssuesExporter._save_journal_details`
(issues.py 1108-1118):

    for detail in sorted(sorted(journal['details'], key=sort_type),
                         key=itemgetter('name')):

Python's `sorted` is a stable sort; any stable sort w.r.t. the same key
order produces the same list, so it is embedded as a stable insertion
sort. -/

/-- Field category of a journal detail (`detail['property']`); details are
filtered to these two kinds at collection time (issues.py 812-813). -/
inductive PropKind : Type where
  | attr : PropKind
  | cf : PropKind
deriving DecidableEq, Repr

/-- `sort_type` (issues.py 1108-1112). -/
def sortTypeKey : PropKind → Nat
  | .attr => 0
  | .cf => 1

/-- A journal detail restricted to its two sort keys. -/
structure SortedDetail : Type where
  name : String
  kind : PropKind
deriving DecidableEq, Repr

/-- Stable insertion: `a` is placed after every element strictly smaller
under `lt`, and before the first element not smaller — so elements with
equal keys keep their original relative order, as Python's stable
`sorted` guarantees. -/
def stableInsert {α : Type} (lt : α → α → Bool) (a : α) :
    List α → List α
  | [] => [a]
  | b :: l => if lt b a then b :: stableInsert lt a l else a :: b :: l

/-- Stable insertion sort. -/
def stableSort {α : Type} (lt : α → α → Bool) : List α → List α
  | [] => []
  | a :: l => stableInsert lt a (stableSort lt l)

/-- The exact composite sort of issues.py 1117-1118: stable sort by
`sort_type`, then stable sort by `name` (the outer, therefore primary,
key). -/
def sortJournalDetails (ds : List SortedDetail) : List SortedDetail :=
  stableSort (fun a b => decide (a.name < b.name))
    (stableSort (fun a b => decide (sortTypeKey a.kind < sortTypeKey b.kind))
      ds)

/-! ## Mapping resolver

Embedding of `IssuesExporter._get_resource_mapping`
(issues.py 1332-1562).  Types:

* `P`  — project ids (the optional `project_id` scope),
* `V`  — Redmine identifying values (for every catalog entry of a given
  Redmine type the Redmine-side field is the same, so a resource is
  represented by that single value),
* `TM` — resource type mappings (the `ResourceTypeMapping` pairs allowed
  for the resource's Redmine type; the probe order is the dictionary
  order of `RESOURCE_TYPE_IDENTIFYING_FIELD_MAPPINGS`),
* `W`  — Jira mapping values (bare values, or `(id, name)` pairs when the
  journals export feature is on).

The dynamic table `self._resource_value_mappings` is keyed by
`(value, type_mapping)` without a project scope and by
`(project_id, value, type_mapping)` with one; the two tuple shapes are
disjoint Python keys, embedded as an `Option P` component. -/

/-- Key of the dynamic resource value mapping table. -/
abbrev DynKey (P V TM : Type) : Type := Option P × V × TM

/-- The dynamic resource value mapping table, in insertion order. -/
abbrev DynTable (P V TM W : Type) : Type := List (DynKey P V TM × W)

/-- The per-resource-type context of a resolution: the allowed type
mappings in probe order and the static configuration lookup
(`getattr(config, ..._MAPPINGS, {})` composed with the per-project
indexing by project identifier, issues.py 1405-1430). -/
structure ResolveCtx (P V TM W : Type) : Type where
  tms : List TM
  static : TM → Option P → V → Option W

/-- First non-`none` hit when probing the type mappings in order,
together with the mapping that produced it (the loop variable
`resource_type_mapping` left at the `break`). -/
def firstHit {TM W : Type} (f : TM → Option W) : List TM → Option (W × TM)
  | [] => none
  | tm :: rest =>
    match f tm with
    | some w => some (w, tm)
    | none => firstHit f rest

/-- The dynamic-lookup loop (issues.py 1436-1465): probe the dynamic
table under the scoped or unscoped key for each allowed type mapping. -/
def dynFirstHit {P V TM W : Type} [DecidableEq P] [DecidableEq V]
    [DecidableEq TM] (dyn : DynTable P V TM W) (scope : Option P) (v : V)
    (tms : List TM) : Option (W × TM) :=
  firstHit (fun tm => alist.find (scope, v, tm) dyn) tms

/-- Operator input consumed only by the interactive fallback: the 1-based
menu choice of a Jira resource type (`click.IntRange` re-prompts until it
is in range, so a valid run always supplies one) and the value answer. -/
structure PromptInput (TM W : Type) : Type where
  choice : Nat
  answer : W

/-- The final value post-processing (issues.py 1556-1557): in journals
mode, unless the caller asked for the internal id, project the stored
`(id, name)` pair to its second component, here `proj`. -/
def postValue {W : Type} (exportJournals includeInternalId : Bool)
    (proj : W → W) (w : W) : W :=
  if exportJournals && !includeInternalId then proj w else w

/-- `IssuesExporter._get_resource_mapping`, restricted to one resource
instance: static lookup first (first non-empty hit wins), then the
dynamic table, then the interactive fallback, which records the answer
under the scoped key before returning it.  The result carries the mapped
value, the chosen type mapping, the new dynamic table and whether the
user was prompted.  `none` models the crash of an empty catalog probe
list (`jira_resource_type` would still be `None` at line 1515). -/
def resolveResource {P V TM W : Type} [DecidableEq P] [DecidableEq V]
    [DecidableEq TM] (exportJournals includeInternalId : Bool)
    (proj : W → W) (ctx : ResolveCtx P V TM W) (scope : Option P) (v : V)
    (pin : PromptInput TM W) (dyn : DynTable P V TM W) :
    Option (W × TM × DynTable P V TM W × Bool) :=
  match firstHit (fun tm => ctx.static tm scope v) ctx.tms with
  | some (w, tm) =>
    some (postValue exportJournals includeInternalId proj w, tm, dyn, false)
  | none =>
    match dynFirstHit dyn scope v ctx.tms with
    | some (w, tm) =>
      some (postValue exportJournals includeInternalId proj w, tm, dyn,
            false)
    | none =>
      match (if ctx.tms.length > 1 then ctx.tms.get? (pin.choice - 1)
             else ctx.tms.getLast?) with
      | none => none
      | some tm =>
        some (postValue exportJournals includeInternalId proj pin.answer,
              tm, ((scope, v, tm), pin.answer) :: dyn, true)

/-! ## Journal coalescing pass

Embedding of `IssuesExporter._coalesce_journal_details`
(issues.py 844-964).  Raw values live in a type `V`;
`_lookup_journal_detail_property_value` is the parameter
`lk : V → Option V` (`none` = a dangling integer reference, `some` = the
resolved resource or the original non-integer value passed through).
The issue's current live value of the property is `live : Option V`;
when it exists its identifying string form is non-`None`, so the
end-of-chain repair fires exactly when `live` is `some` (when the live
value is absent the comparison `None != None` fails for plain attributes
and missing custom fields and nothing is replaced).  Python truthiness of
a resolved value is the parameter `tr : V → Bool`. -/

/-- A raw journal detail of one property, as collected by
`_collect_journal_details`: optional old/new raw values, author and
timestamp. -/
structure RawJD (V : Type) : Type where
  oldRaw : Option V
  newRaw : Option V
  author : Nat
  created : Nat
deriving DecidableEq, Repr

/-- A journal detail after value resolution: each present value is either
a resolved value (`some`) or `None` for a dangling reference
(`some none` at the outer layer = key present, value `None`). -/
structure JDetail (V : Type) : Type where
  oldVal : Option (Option V)
  newVal : Option (Option V)
  author : Nat
  created : Nat
deriving DecidableEq, Repr

/-- The in-place value resolution of issues.py 880-885. -/
def resolveJD {V : Type} (lk : V → Option V) (d : RawJD V) : JDetail V :=
  { oldVal := d.oldRaw.map lk, newVal := d.newRaw.map lk,
    author := d.author, created := d.created }

/-- The end-of-chain repair of issues.py 896-927, applied only to the
chronologically last detail: when its (present) new value resolved to
`None` and the issue's live value exists, replace it with the live
value. -/
def repairJD {V : Type} [DecidableEq V] (live : Option V) (d : JDetail V) :
    JDetail V :=
  if d.newVal = some none then
    match live with
    | some v => { d with newVal := some (some v) }
    | none => d
  else d

/-- The old-value backfill of issues.py 929-940: when the running merged
detail has a present but invalid old value and the current (older) detail
has a valid one, copy it over. -/
def backfillJD {V : Type} [DecidableEq V] (running current : JDetail V) :
    JDetail V :=
  if running.oldVal = some none then
    match current.oldVal with
    | some (some v) => { running with oldVal := some (some v) }
    | _ => running
  else running

/-- Python truthiness of an optional resolved value
(`jd.get(..., None)`). -/
def truthyOpt {V : Type} (tr : V → Bool) : Option (Option V) → Bool
  | none => false
  | some none => false
  | some (some v) => tr v

/-- `is_journal_detail_valid` (issues.py 857-867): a pure set, a pure
unset, or a replacement whose two values are both valid. -/
def isValidJD {V : Type} (tr : V → Bool) (d : JDetail V) : Bool :=
  (d.oldVal.isNone && truthyOpt tr d.newVal) ||
  (d.newVal.isNone && truthyOpt tr d.oldVal) ||
  (match d.oldVal, d.newVal with
   | some (some _), some (some _) => true
   | _, _ => false)

/-- The no-op filter of issues.py 943-948: a valid merged detail is
emitted unless both values are present and equal. -/
def emitOK {V : Type} [DecidableEq V] (d : JDetail V) : Bool :=
  match d.oldVal, d.newVal with
  | some o, some n => decide (o ≠ n)
  | _, _ => true

/-- The reversed-iteration loop body of `_coalesce_journal_details`
(issues.py 876-956) for one property.  `isFirst` marks `i == 0`, i.e. the
chronologically last detail.  When `new_journal_detail` is `None` it is
bound to the current detail dictionary, so the resolution and repair of
that iteration also act on the running detail — here the current detail
is resolved and repaired first, then taken as the running one. -/
def coalesceGo {V : Type} [DecidableEq V] (lk : V → Option V)
    (live : Option V) (tr : V → Bool) :
    Bool → Option (JDetail V) → List (JDetail V) → List (RawJD V) →
    List (JDetail V)
  | _, running, acc, [] =>
    acc ++
      (match running with
       | some d => if isValidJD tr d then [d] else []
       | none => [])
  | isFirst, running, acc, jd :: rest =>
    let jd1 := resolveJD lk jd
    let jd2 := if isFirst then repairJD live jd1 else jd1
    let r := backfillJD (running.getD jd2) jd2
    if isValidJD tr r then
      coalesceGo lk live tr false none
        (acc ++ if emitOK r then [r] else []) rest
    else
      coalesceGo lk live tr false (some r) acc rest

/-- `IssuesExporter._coalesce_journal_details` for one property bucket:
iterate the detail list newest to oldest, producing the coalesced list. -/
def coalesceJournalDetails {V : Type} [DecidableEq V] (lk : V → Option V)
    (live : Option V) (tr : V → Bool) (details : List (RawJD V)) :
    List (JDetail V) :=
  coalesceGo lk live tr true none [] details.reverse

/-! ## Theorems -/

/-- Helper: `_save_custom_fields` emits exactly one `customFieldValues`
entry per issue custom field — no entry is ever omitted. -/
theorem saveCustomFields_length (fe : Bool) :
    ∀ (cfs : List CustomFieldIn) (es : List CFEntry),
      saveCustomFields fe cfs = .ok es → es.length = cfs.length := by
  intro cfs
  induction cfs with
  | nil =>
    intro es h
    simp only [saveCustomFields, Except.ok.injEq] at h
    simp [← h]
  | cons cf rest ih =>
    intro es h
    unfold saveCustomFields at h
    split at h
    · exact absurd h (by simp)
    · split at h
      · exact absurd h (by simp)
      · split at h
        · exact absurd h (by simp)
        · rename_i heq₁ heq₂ value hval
          split at h
          · exact absurd h (by simp)
          · rename_i entries hrest
            simp only [Except.ok.injEq] at h
            simp [← h, ih entries hrest]

/-- C10: when issue assignment to groups is enabled and the assignee id is
a known group, the assignee resolves through the group mapping even if the
same id is also a known user; when the flag is off or the id is not a
known group, it resolves through the user mapping. -/
theorem assigned_to_group_precedence {G U W : Type}
    (groups : List (Nat × G)) (users : List (Nat × U))
    (resolveGroup : G → W) (resolveUser : U → W) (i : Nat) (g : G)
    (u : U) :
    (alist.find i groups = some g →
      saveAssignedTo true groups users resolveGroup resolveUser i =
        some (resolveGroup g)) ∧
    (alist.find i users = some u →
      saveAssignedTo false groups users resolveGroup resolveUser i =
        some (resolveUser u)) ∧
    (alist.find i groups = none → alist.find i users = some u →
      ∀ allowGroups,
        saveAssignedTo allowGroups groups users resolveGroup resolveUser i =
          some (resolveUser u)) := by
  refine ⟨?_, ?_, ?_⟩
  · intro hg
    simp [saveAssignedTo, hg]
  · intro hu
    simp [saveAssignedTo, hu]
  · intro hg hu allowGroups
    simp [saveAssignedTo, hg, hu]

/-- C10 witness: concrete instantiation with id 3 known both as a group
and as a user. -/
theorem assigned_to_group_precedence_witness :
    saveAssignedTo true [(3, 10)] [(3, 20)] (fun g => g + 1)
        (fun u => u + 2) 3 = some 11 ∧
    saveAssignedTo false [(3, 10)] [(3, 20)] (fun g => g + 1)
        (fun u => u + 2) 3 = some 22 :=
  ⟨(assigned_to_group_precedence [(3, 10)] [(3, 20)] (fun g => g + 1)
      (fun u => u + 2) 3 10 20).1 (by decide),
   (assigned_to_group_precedence [(3, 10)] [(3, 20)] (fun g => g + 1)
      (fun u => u + 2) 3 10 20).2.1 (by decide)⟩

/-- C8: for a non-empty value, a field format outside the supported set
raises the explicit unsupported-format error, except `link` and `list`
which silently pass the value through; every supported format is
projected without reaching the fatal branch. -/
theorem cf_unsupported_format_fatal (formattingEnabled : Bool) (d : CFDef)
    (v : RVal) (htruthy : v.truthy = true) :
    (d.field_format ∉
        (["bool", "date", "float", "int", "text", "string", "user",
          "version", "link", "list"] : List String) →
      getCustomFieldValueMapping formattingEnabled d v =
        .error (.unsupportedFormat d.field_format)) ∧
    ((d.field_format = "link" ∨ d.field_format = "list") →
      getCustomFieldValueMapping formattingEnabled d v = .ok (.raw v)) ∧
    (d.field_format ∈
        (["bool", "date", "float", "int", "text", "string", "user",
          "version"] : List String) →
      (getCustomFieldValueMapping formattingEnabled d v).isOk = true) := by
  refine ⟨?_, ?_, ?_⟩
  · intro h
    simp only [List.mem_cons, not_or] at h
    obtain ⟨h1, h2, h3, h4, h5, h6, h7, h8, h9, h10, -⟩ := h
    simp [getCustomFieldValueMapping, htruthy, h1, h2, h3, h4, h5, h6, h7,
          h8, h9, h10]
  · intro h
    rcases h with h | h <;> simp [getCustomFieldValueMapping, htruthy, h]
  · intro h
    simp only [List.mem_cons] at h
    rcases h with h | h | h | h | h | h | h | h | h
    all_goals first
      | (simp only [getCustomFieldValueMapping]
         rw [h]
         simp [htruthy]
         split_ifs <;> rfl)
      | (simp only [getCustomFieldValueMapping]
         rw [h]
         simp [htruthy, Except.isOk, Except.toBool])
      | simp at h

/-- C8 witness: the unknown format `enumeration` is fatal, `link` passes
through, and the supported format `bool` projects successfully. -/
theorem cf_unsupported_format_fatal_witness :
    getCustomFieldValueMapping false ⟨"enumeration", false⟩ (.str "x") =
      .error (.unsupportedFormat "enumeration") ∧
    getCustomFieldValueMapping false ⟨"link", false⟩ (.str "x") =
      .ok (.raw (.str "x")) ∧
    (getCustomFieldValueMapping false ⟨"bool", false⟩ (.str "1")).isOk =
      true :=
  ⟨(cf_unsupported_format_fatal false ⟨"enumeration", false⟩ (.str "x")
      (by decide)).1 (by decide),
   (cf_unsupported_format_fatal false ⟨"link", false⟩ (.str "x")
      (by decide)).2.1 (Or.inl rfl),
   (cf_unsupported_format_fatal false ⟨"bool", false⟩ (.str "1")
      (by decide)).2.2 (by decide)⟩

/-- C1 counterexample: a `bool` custom field whose raw value is `None` is
NOT omitted from `customFieldValues` — `_save_custom_fields` appends an
entry whose `value` is the raw `None`, refuting the omission part of the
claim. -/
theorem cf_bool_null_not_omitted :
    saveCustomFields false [⟨⟨"bool", false⟩, "MyFlag", .null⟩] =
      .ok [⟨"MyFlag",
            "com.atlassian.jira.plugin.system.customfieldtypes:select",
            .raw .null⟩] ∧
    ([(⟨"MyFlag",
        "com.atlassian.jira.plugin.system.customfieldtypes:select",
        .raw .null⟩ : CFEntry)] ≠ ([] : List CFEntry)) := by
  exact ⟨rfl, by decide⟩

/-- C1 amended: a `bool` custom field projects raw `'1'` to `Yes` and
`'0'` to `No`; a `None`/empty raw value short-circuits with no conversion
(the raw value is passed through), and the field is still appended to
`customFieldValues` — one entry per custom field, never omitted. -/
theorem cf_bool_projection (fe : Bool) (d : CFDef)
    (hbool : d.field_format = "bool") :
    getCustomFieldValueMapping fe d (.str "1") = .ok .yes ∧
    getCustomFieldValueMapping fe d (.str "0") = .ok .no ∧
    (∀ v : RVal, v.truthy = false →
      getCustomFieldValueMapping fe d v = .ok (.raw v)) ∧
    (∀ (cfs : List CustomFieldIn) (es : List CFEntry),
      saveCustomFields fe cfs = .ok es → es.length = cfs.length) := by
  refine ⟨?_, ?_, ?_, saveCustomFields_length fe⟩
  · simp [getCustomFieldValueMapping, hbool, RVal.truthy]
  · simp [getCustomFieldValueMapping, hbool, RVal.truthy]
  · intro v hv
    simp [getCustomFieldValueMapping, hv]

/-- C1 amended witness: concrete `bool` field, values `'1'`, `'0'` and
`None`. -/
theorem cf_bool_projection_witness :
    getCustomFieldValueMapping false ⟨"bool", false⟩ (.str "1") =
      .ok .yes ∧
    getCustomFieldValueMapping false ⟨"bool", false⟩ (.str "0") =
      .ok .no ∧
    getCustomFieldValueMapping false ⟨"bool", false⟩ .null =
      .ok (.raw .null) :=
  ⟨(cf_bool_projection false ⟨"bool", false⟩ rfl).1,
   (cf_bool_projection false ⟨"bool", false⟩ rfl).2.1,
   (cf_bool_projection false ⟨"bool", false⟩ rfl).2.2.1 .null (by decide)⟩

/-! ### Stable sort lemmas (for the history item ordering) -/

theorem stableInsert_perm {α : Type} (lt : α → α → Bool) (a : α) :
    ∀ l : List α, (stableInsert lt a l).Perm (a :: l)
  | [] => List.Perm.refl _
  | b :: l => by
    unfold stableInsert
    split
    · exact ((stableInsert_perm lt a l).cons b).trans (List.Perm.swap a b l)
    · exact List.Perm.refl _

theorem stableSort_perm {α : Type} (lt : α → α → Bool) :
    ∀ l : List α, (stableSort lt l).Perm l
  | [] => List.Perm.refl _
  | a :: l =>
    (stableInsert_perm lt a (stableSort lt l)).trans
      ((stableSort_perm lt l).cons a)

theorem stableInsert_sorted {α : Type} (lt : α → α → Bool)
    (hasymm : ∀ x y, lt x y = true → lt y x = false)
    (htrans : ∀ x y z, lt y x = false → lt z y = false → lt z x = false)
    (a : α) :
    ∀ l : List α, l.Pairwise (fun x y => lt y x = false) →
      (stableInsert lt a l).Pairwise (fun x y => lt y x = false)
  | [], _ => by simp [stableInsert]
  | b :: l, h => by
    rw [List.pairwise_cons] at h
    obtain ⟨hb, hl⟩ := h
    unfold stableInsert
    split
    · rename_i hba
      refine List.pairwise_cons.mpr
        ⟨?_, stableInsert_sorted lt hasymm htrans a l hl⟩
      intro x hx
      rcases List.mem_cons.mp
          ((stableInsert_perm _ a l).mem_iff.mp hx) with hxa | hxl
      · exact hxa ▸ hasymm b a hba
      · exact hb x hxl
    · rename_i hba
      rw [Bool.not_eq_true] at hba
      refine List.pairwise_cons.mpr ⟨?_, List.pairwise_cons.mpr ⟨hb, hl⟩⟩
      intro x hx
      rcases List.mem_cons.mp hx with hxb | hxl
      · exact hxb ▸ hba
      · exact htrans a b x hba (hb x hxl)

theorem stableInsert_stable {α : Type} (lt : α → α → Bool)
    (R : α → α → Prop) (a : α) :
    ∀ l : List α,
      (∀ x ∈ l, lt a x = false → lt x a = false → R a x) →
      l.Pairwise (fun x y => lt x y = false → lt y x = false → R x y) →
      (stableInsert lt a l).Pairwise
        (fun x y => lt x y = false → lt y x = false → R x y)
  | [], _, _ => by simp [stableInsert]
  | b :: l, hal, h => by
    rw [List.pairwise_cons] at h
    obtain ⟨hb, hl⟩ := h
    unfold stableInsert
    split
    · rename_i hba
      refine List.pairwise_cons.mpr
        ⟨?_, stableInsert_stable lt R a l
              (fun x hx => hal x (List.mem_cons_of_mem b hx)) hl⟩
      intro x hx
      rcases List.mem_cons.mp
          ((stableInsert_perm _ a l).mem_iff.mp hx) with hxa | hxl
      · subst hxa
        intro h1 h2
        rw [hba] at h1
        exact Bool.noConfusion h1
      · exact hb x hxl
    · refine List.pairwise_cons.mpr ⟨?_, List.pairwise_cons.mpr ⟨hb, hl⟩⟩
      intro x hx
      rcases List.mem_cons.mp hx with hxb | hxl
      · exact hxb ▸ hal b (List.mem_cons_self b l)
      · exact hal x (List.mem_cons_of_mem b hxl)

theorem stableSort_sorted {α : Type} (lt : α → α → Bool)
    (hasymm : ∀ x y, lt x y = true → lt y x = false)
    (htrans : ∀ x y z, lt y x = false → lt z y = false → lt z x = false) :
    ∀ l : List α,
      (stableSort lt l).Pairwise (fun x y => lt y x = false)
  | [] => List.Pairwise.nil
  | a :: l =>
    stableInsert_sorted lt hasymm htrans a _
      (stableSort_sorted lt hasymm htrans l)

theorem stableSort_stable {α : Type} (lt : α → α → Bool)
    (R : α → α → Prop) :
    ∀ l : List α,
      l.Pairwise (fun x y => lt x y = false → lt y x = false → R x y) →
      (stableSort lt l).Pairwise
        (fun x y => lt x y = false → lt y x = false → R x y)
  | [], _ => List.Pairwise.nil
  | a :: l, h => by
    rw [List.pairwise_cons] at h
    obtain ⟨ha, hl⟩ := h
    exact stableInsert_stable lt R a _
      (fun x hx => ha x ((stableSort_perm _ l).mem_iff.mp hx))
      (stableSort_stable lt R l hl)

/-- C6 counterexample: an event holding a standard-field detail named
`status_id` and a custom-field detail named `5` is emitted with the
custom-field item first — the sort of issues.py 1117-1118 orders by name
first (its outer, primary key), so the claimed category-first order does
not hold. -/
theorem history_item_order_counterexample :
    sortJournalDetails [⟨"status_id", .attr⟩, ⟨"5", .cf⟩] =
      [⟨"5", .cf⟩, ⟨"status_id", .attr⟩] ∧
    (⟨"5", PropKind.cf⟩ : SortedDetail).kind = PropKind.cf ∧
    (⟨"status_id", PropKind.attr⟩ : SortedDetail).kind = PropKind.attr ∧
    sortJournalDetails [⟨"status_id", .attr⟩, ⟨"5", .cf⟩] ≠
      [⟨"status_id", .attr⟩, ⟨"5", .cf⟩] := by
  have h5 : ("5" : String) < "status_id" := by
    rw [String.lt_iff_toList_lt]
    exact List.Lex.rel (by decide)
  have hd5 : decide (("5" : String) < "status_id") = true :=
    decide_eq_true h5
  have h5l : (['5'] : List Char) < ['s', 't', 'a', 't', 'u', 's', '_',
      'i', 'd'] := List.Lex.rel (by decide)
  have hsort :
      sortJournalDetails [⟨"status_id", .attr⟩, ⟨"5", .cf⟩] =
        [⟨"5", .cf⟩, ⟨"status_id", .attr⟩] := by
    simp [sortJournalDetails, stableSort, stableInsert, sortTypeKey, hd5,
          h5, h5l]
  refine ⟨hsort, rfl, rfl, ?_⟩
  rw [hsort]
  decide

/-- C6 amended: within an event, items are ordered alphabetically by raw
property name, with ties broken by field category (`attr` before `cf`) —
name is the primary key, not the field category. -/
theorem history_item_order (ds : List SortedDetail) :
    (sortJournalDetails ds).Perm ds ∧
    (sortJournalDetails ds).Pairwise (fun a b =>
      a.name < b.name ∨
        (a.name = b.name ∧ sortTypeKey a.kind ≤ sortTypeKey b.kind)) := by
  have hasymmN : ∀ x y : SortedDetail,
      decide (x.name < y.name) = true →
        decide (y.name < x.name) = false := by
    intro x y h
    rw [decide_eq_true_eq] at h
    rw [decide_eq_false_iff_not]
    exact asymm h
  have htransN : ∀ x y z : SortedDetail,
      decide (y.name < x.name) = false →
        decide (z.name < y.name) = false →
          decide (z.name < x.name) = false := by
    intro x y z h1 h2
    rw [decide_eq_false_iff_not, not_lt] at h1 h2 ⊢
    exact le_trans h1 h2
  have hasymmT : ∀ x y : SortedDetail,
      decide (sortTypeKey x.kind < sortTypeKey y.kind) = true →
        decide (sortTypeKey y.kind < sortTypeKey x.kind) = false := by
    intro x y h
    rw [decide_eq_true_eq] at h
    rw [decide_eq_false_iff_not]
    exact asymm h
  have htransT : ∀ x y z : SortedDetail,
      decide (sortTypeKey y.kind < sortTypeKey x.kind) = false →
        decide (sortTypeKey z.kind < sortTypeKey y.kind) = false →
          decide (sortTypeKey z.kind < sortTypeKey x.kind) = false := by
    intro x y z h1 h2
    rw [decide_eq_false_iff_not, not_lt] at h1 h2 ⊢
    exact le_trans h1 h2
  constructor
  · exact (stableSort_perm _ _).trans (stableSort_perm _ _)
  · have hinner :=
      stableSort_sorted
        (fun x y : SortedDetail =>
          decide (sortTypeKey x.kind < sortTypeKey y.kind))
        hasymmT htransT ds
    have hinner' :
        (stableSort
            (fun x y : SortedDetail =>
              decide (sortTypeKey x.kind < sortTypeKey y.kind)) ds).Pairwise
          (fun x y => decide (x.name < y.name) = false →
            decide (y.name < x.name) = false →
              sortTypeKey x.kind ≤ sortTypeKey y.kind) :=
      hinner.imp (fun h _ _ =>
        le_of_not_lt (by rwa [decide_eq_false_iff_not] at h))
    have houter :=
      stableSort_sorted
        (fun x y : SortedDetail => decide (x.name < y.name)) hasymmN htransN
        (stableSort
          (fun x y : SortedDetail =>
            decide (sortTypeKey x.kind < sortTypeKey y.kind)) ds)
    have hstable :=
      stableSort_stable
        (fun x y : SortedDetail => decide (x.name < y.name))
        (fun x y => sortTypeKey x.kind ≤ sortTypeKey y.kind) _ hinner'
    refine (houter.and hstable).imp ?_
    rintro a b ⟨hle, hty⟩
    rw [decide_eq_false_iff_not, not_lt] at hle
    rcases eq_or_lt_of_le hle with heq | hlt
    · refine Or.inr ⟨heq, hty ?_ ?_⟩
      · rw [decide_eq_false_iff_not, heq]
        exact lt_irrefl _
      · rw [decide_eq_false_iff_not, heq]
        exact lt_irrefl _
    · exact Or.inl hlt

/-! ### Project bucket lemmas -/

theorem appendIssue_map_key {K I : Type} [DecidableEq K] (k : K) (i : I) :
    ∀ ps : List (ProjectBucket K I),
      (appendIssueToBucket ps k i).map ProjectBucket.key =
        ps.map ProjectBucket.key
  | [] => rfl
  | p :: rest => by
    unfold appendIssueToBucket
    split
    · simp
    · simp [appendIssue_map_key k i rest]

theorem saveProject_map_key {K I : Type} [DecidableEq K]
    (ps : List (ProjectBucket K I)) (k : K) :
    (saveProjectBucket ps k).map ProjectBucket.key =
      (if k ∈ ps.map ProjectBucket.key then ps.map ProjectBucket.key
       else ps.map ProjectBucket.key ++ [k]) := by
  unfold saveProjectBucket
  split
  · rename_i h
    simp only [List.any_eq_true, decide_eq_true_eq] at h
    obtain ⟨p, hp, hpk⟩ := h
    rw [if_pos (List.mem_map.mpr ⟨p, hp, hpk⟩)]
  · rename_i h
    rw [if_neg]
    · simp
    · intro hmem
      obtain ⟨p, hp, hpk⟩ := List.mem_map.mp hmem
      exact h (List.any_eq_true.mpr ⟨p, hp, decide_eq_true hpk⟩)

theorem processIssue_map_key {K I : Type} [DecidableEq K]
    (ps : List (ProjectBucket K I)) (k : K) (i : I) :
    (processIssue ps (k, i)).map ProjectBucket.key =
      (if k ∈ ps.map ProjectBucket.key then ps.map ProjectBucket.key
       else ps.map ProjectBucket.key ++ [k]) := by
  unfold processIssue
  rw [appendIssue_map_key, saveProject_map_key]

theorem appendIssue_mem {K I : Type} [DecidableEq K] (k : K) (i : I) :
    ∀ ps : List (ProjectBucket K I),
      (ps.map ProjectBucket.key).Nodup →
      ∀ p' ∈ appendIssueToBucket ps k i,
        (p'.key ≠ k ∧ p' ∈ ps) ∨
        (p'.key = k ∧ ∃ p ∈ ps, p.key = k ∧
          p' = { p with issues := p.issues ++ [i] })
  | [], _, p', hp' => absurd hp' (by simp [appendIssueToBucket])
  | p :: rest, hnd, p', hp' => by
    rw [List.map_cons, List.nodup_cons] at hnd
    obtain ⟨hheadnd, hndrest⟩ := hnd
    unfold appendIssueToBucket at hp'
    split at hp'
    · rename_i hpk
      rcases List.mem_cons.mp hp' with hhead | htail
      · exact Or.inr ⟨by rw [hhead]; exact hpk, p,
          List.mem_cons_self p rest, hpk, hhead⟩
      · left
        refine ⟨?_, List.mem_cons_of_mem p htail⟩
        intro hk
        exact hheadnd (hpk ▸ hk ▸
          List.mem_map.mpr ⟨p', htail, rfl⟩)
    · rename_i hpk
      rcases List.mem_cons.mp hp' with hhead | htail
      · exact Or.inl ⟨by rw [hhead]; exact hpk, hhead ▸
          List.mem_cons_self p rest⟩
      · rcases appendIssue_mem k i rest hndrest p' htail with
          ⟨hne, hmem⟩ | ⟨heq, q, hq, hqk, hq'⟩
        · exact Or.inl ⟨hne, List.mem_cons_of_mem p hmem⟩
        · exact Or.inr ⟨heq, q, List.mem_cons_of_mem p hq, hqk, hq'⟩

theorem processIssue_mem {K I : Type} [DecidableEq K]
    (ps : List (ProjectBucket K I)) (k : K) (i : I)
    (hnd : (ps.map ProjectBucket.key).Nodup) :
    ∀ p' ∈ processIssue ps (k, i),
      (p'.key ≠ k ∧ p' ∈ ps) ∨
      (p'.key = k ∧
        ((∃ p ∈ ps, p.key = k ∧
            p' = { p with issues := p.issues ++ [i] }) ∨
         (k ∉ ps.map ProjectBucket.key ∧
            p' = { key := k, issues := [i] }))) := by
  intro p' hp'
  unfold processIssue saveProjectBucket at hp'
  split at hp'
  · rename_i h
    rcases appendIssue_mem k i ps hnd p' hp' with
      ⟨hne, hmem⟩ | ⟨heq, p, hp, hpk, hp'eq⟩
    · exact Or.inl ⟨hne, hmem⟩
    · exact Or.inr ⟨heq, Or.inl ⟨p, hp, hpk, hp'eq⟩⟩
  · rename_i h
    have hknotin : k ∉ ps.map ProjectBucket.key := by
      intro hmem
      obtain ⟨p, hp, hpk⟩ := List.mem_map.mp hmem
      exact h (List.any_eq_true.mpr ⟨p, hp, decide_eq_true hpk⟩)
    have hnd' : ((ps ++ [({ key := k, issues := [] } :
        ProjectBucket K I)]).map ProjectBucket.key).Nodup := by
      rw [List.map_append]
      refine List.Nodup.append hnd (by simp) ?_
      intro a ha hak
      simp only [List.map_cons, List.map_nil, List.mem_singleton] at hak
      subst hak
      exact hknotin ha
    rcases appendIssue_mem k i _ hnd' p' hp' with
      ⟨hne, hmem⟩ | ⟨heq, p, hp, hpk, hp'eq⟩
    · rcases List.mem_append.mp hmem with hmem' | hmem'
      · exact Or.inl ⟨hne, hmem'⟩
      · have hp'eq : p' = { key := k, issues := [] } := by
          simpa using hmem'
        exact absurd (by rw [hp'eq]) hne
    · rcases List.mem_append.mp hp with hmem' | hmem'
      · exact absurd (hpk ▸ List.mem_map.mpr ⟨p, hmem', rfl⟩) hknotin
      · have hpeq : p = { key := k, issues := [] } := by simpa using hmem'
        subst hpeq
        exact Or.inr ⟨heq, Or.inr ⟨hknotin, by simpa using hp'eq⟩⟩

theorem exportIssues_go {K I : Type} [DecidableEq K] :
    ∀ (l : List (K × I)) (ps : List (ProjectBucket K I)),
      (ps.map ProjectBucket.key).Nodup →
      (l.foldl processIssue ps).map ProjectBucket.key =
          (l.map Prod.fst).foldl
            (fun acc k => if k ∈ acc then acc else acc ++ [k])
            (ps.map ProjectBucket.key) ∧
        ((l.foldl processIssue ps).map ProjectBucket.key).Nodup ∧
        ∀ p' ∈ l.foldl processIssue ps,
          (∃ p ∈ ps, p.key = p'.key ∧
            p'.issues = p.issues ++
              ((l.filter (fun ki => decide (ki.1 = p'.key))).map
                Prod.snd)) ∨
          (p'.key ∉ ps.map ProjectBucket.key ∧
            p'.issues =
              (l.filter (fun ki => decide (ki.1 = p'.key))).map Prod.snd)
  | [], ps, hnd => by
    refine ⟨rfl, hnd, ?_⟩
    intro p' hp'
    exact Or.inl ⟨p', hp', rfl, by simp⟩
  | (k, i) :: rest, ps, hnd => by
    have hkeys := processIssue_map_key ps k i
    have hnd1 : ((processIssue ps (k, i)).map ProjectBucket.key).Nodup := by
      rw [hkeys]
      split
      · exact hnd
      · rename_i hk
        refine List.Nodup.append hnd (List.nodup_singleton k) ?_
        intro a ha hak
        rw [List.mem_singleton] at hak
        subst hak
        exact hk ha
    obtain ⟨ih1, ih2, ih3⟩ :=
      exportIssues_go rest (processIssue ps (k, i)) hnd1
    refine ⟨?_, ih2, ?_⟩
    · simp only [List.foldl_cons, List.map_cons]
      rw [ih1, hkeys]
    · intro p' hp'
      simp only [List.foldl_cons] at hp'
      rcases ih3 p' hp' with ⟨p₁, hp₁, hp₁k, hp₁iss⟩ | ⟨hp'nk, hp'iss⟩
      · rcases processIssue_mem ps k i hnd p₁ hp₁ with
          ⟨hne, hmem⟩ | ⟨heq, ⟨p, hp, hpk, hp₁eq⟩ | ⟨hknotin, hp₁eq⟩⟩
        · refine Or.inl ⟨p₁, hmem, hp₁k, ?_⟩
          rw [hp₁iss]
          congr 1
          rw [List.filter_cons]
          rw [if_neg]
          simp only [decide_eq_true_eq]
          intro hkp'
          exact hne (hp₁k ▸ hkp' ▸ rfl)
        · refine Or.inl ⟨p, hp, by rw [hpk, ← heq, hp₁k], ?_⟩
          rw [hp₁iss, hp₁eq]
          have hkp' : k = p'.key := by rw [← hp₁k, heq]
          rw [List.filter_cons, if_pos (by simp [hkp'])]
          simp [List.append_assoc]
        · have hkp' : k = p'.key := by rw [← hp₁k, hp₁eq]
          refine Or.inr ⟨hkp' ▸ hknotin, ?_⟩
          rw [hp₁iss, hp₁eq]
          rw [List.filter_cons, if_pos (by simp [hkp'])]
          simp
      · have hp'notps : p'.key ∉ ps.map ProjectBucket.key := by
          intro hmem
          apply hp'nk
          rw [hkeys]
          split
          · exact hmem
          · exact List.mem_append_left _ hmem
        have hp'ne : p'.key ≠ k := by
          intro hkey
          apply hp'nk
          rw [hkeys]
          split
          · rw [hkey]
            assumption
          · rw [hkey]
            exact List.mem_append_right _ (List.mem_singleton_self k)
        refine Or.inr ⟨hp'notps, ?_⟩
        rw [hp'iss]
        congr 1
        rw [List.filter_cons, if_neg]
        simp only [decide_eq_true_eq]
        intro hkp'
        exact hp'ne (hkp' ▸ rfl)

/-- C9: project bucket creation is idempotent per resolved key — the
assembled projects list has pairwise distinct keys, the keys appear in
first-seen order, and each bucket holds exactly the issues that resolved
to its key, in arrival order. -/
theorem project_bucket_idempotent {K I : Type} [DecidableEq K]
    (issues : List (K × I)) :
    ((exportIssues issues).map ProjectBucket.key).Nodup ∧
    (exportIssues issues).map ProjectBucket.key =
      firstSeen (issues.map Prod.fst) ∧
    ∀ p ∈ exportIssues issues,
      p.issues =
        (issues.filter (fun ki => decide (ki.1 = p.key))).map Prod.snd := by
  obtain ⟨h1, h2, h3⟩ := exportIssues_go issues [] (by simp)
  refine ⟨h2, h1, ?_⟩
  intro p hp
  rcases h3 p hp with ⟨q, hq, -, -⟩ | ⟨-, hiss⟩
  · exact absurd hq (List.not_mem_nil q)
  · exact hiss

/-! ### Journal rebuild lemmas -/

/-- The rebuild input flattened to one list of
`(user, created, (name, payload))` triples in iteration order. -/
def rbFlatten {V : Type} (m : List (String × List (RbItem V))) :
    List (Nat × Nat × (String × V)) :=
  m.flatMap (fun pi => pi.2.map (fun it => (it.user, it.created,
    (pi.1, it.payload))))

/-- `detailsAt` over the flattened input. -/
def detailsAtFlat {V : Type} (l : List (Nat × Nat × (String × V)))
    (c : Nat) : List (String × V) :=
  (l.filter (fun t => decide (t.2.1 = c))).map (fun t => t.2.2)

theorem rebuild_foldl_flatten {V : Type} :
    ∀ (m : List (String × List (RbItem V))) (js : List (RbJournal V)),
      m.foldl
        (fun js pi =>
          pi.2.foldl
            (fun js it =>
              addRbDetail js it.user it.created (pi.1, it.payload)) js)
        js =
      (rbFlatten m).foldl (fun js t => addRbDetail js t.1 t.2.1 t.2.2) js
  | [], _ => rfl
  | (p, items) :: rest, js => by
    simp only [List.foldl_cons, rbFlatten, List.flatMap_cons,
      List.foldl_append, List.foldl_map]
    exact rebuild_foldl_flatten rest _

theorem detailsAt_cons {V : Type} (p : String) (items : List (RbItem V))
    (rest : List (String × List (RbItem V))) (c : Nat) :
    detailsAt ((p, items) :: rest) c =
      ((items.filter (fun it => decide (it.created = c))).map
        (fun it => (p, it.payload))) ++ detailsAt rest c := rfl

theorem detailsAtFlat_append {V : Type}
    (l₁ l₂ : List (Nat × Nat × (String × V))) (c : Nat) :
    detailsAtFlat (l₁ ++ l₂) c =
      detailsAtFlat l₁ c ++ detailsAtFlat l₂ c := by
  simp [detailsAtFlat]

theorem detailsAtFlat_map {V : Type} (p : String)
    (items : List (RbItem V)) (c : Nat) :
    detailsAtFlat
        (items.map (fun it => (it.user, it.created, (p, it.payload)))) c =
      (items.filter (fun it => decide (it.created = c))).map
        (fun it => (p, it.payload)) := by
  simp only [detailsAtFlat, List.filter_map, List.map_map]
  rfl

theorem detailsAt_flatten {V : Type} :
    ∀ (m : List (String × List (RbItem V))) (c : Nat),
      detailsAt m c = detailsAtFlat (rbFlatten m) c
  | [], _ => rfl
  | (p, items) :: rest, c => by
    have hflat : rbFlatten ((p, items) :: rest) =
        items.map (fun it => (it.user, it.created, (p, it.payload))) ++
          rbFlatten rest := by
      simp [rbFlatten]
    rw [detailsAt_cons, hflat, detailsAtFlat_append, detailsAtFlat_map,
        detailsAt_flatten rest c]

theorem addRb_map_created {V : Type} (u c : Nat) (d : String × V) :
    ∀ js : List (RbJournal V),
      (addRbDetail js u c d).map RbJournal.created =
        (if c ∈ js.map RbJournal.created then js.map RbJournal.created
         else js.map RbJournal.created ++ [c])
  | [] => by simp [addRbDetail]
  | j :: js => by
    unfold addRbDetail
    split
    · rename_i hjc
      have hc : c ∈ (j :: js).map RbJournal.created := by
        rw [List.map_cons, List.mem_cons]
        exact Or.inl hjc.symm
      rw [if_pos hc]
      simp
    · rename_i hjc
      by_cases hc : c ∈ js.map RbJournal.created
      · have hc' : c ∈ (j :: js).map RbJournal.created := by
          rw [List.map_cons, List.mem_cons]
          exact Or.inr hc
        rw [if_pos hc', List.map_cons, addRb_map_created u c d js,
            if_pos hc]
        rfl
      · have hc' : c ∉ (j :: js).map RbJournal.created := by
          rw [List.map_cons, List.mem_cons]
          rintro (hcj | hcjs)
          · exact hjc hcj.symm
          · exact hc hcjs
        rw [if_neg hc', List.map_cons, addRb_map_created u c d js,
            if_neg hc, List.map_cons, List.cons_append]

theorem addRb_nodup {V : Type} (u c : Nat) (d : String × V)
    (js : List (RbJournal V))
    (hnd : (js.map RbJournal.created).Nodup) :
    ((addRbDetail js u c d).map RbJournal.created).Nodup := by
  rw [addRb_map_created]
  split
  · exact hnd
  · rename_i hc
    refine List.Nodup.append hnd (List.nodup_singleton c) ?_
    intro a ha hac
    rw [List.mem_singleton] at hac
    subst hac
    exact hc ha

theorem addRb_mem {V : Type} (u c : Nat) (d : String × V) :
    ∀ js : List (RbJournal V),
      (js.map RbJournal.created).Nodup →
      ∀ j' ∈ addRbDetail js u c d,
        (j'.created ≠ c ∧ j' ∈ js) ∨
        (j'.created = c ∧
          ((∃ j ∈ js, j.created = c ∧
              j' = { j with details := j.details ++ [d] }) ∨
           (c ∉ js.map RbJournal.created ∧
              j' = { user := u, created := c, details := [d] })))
  | [], _, j', hj' => by
    rw [addRbDetail] at hj'
    rw [List.mem_singleton] at hj'
    subst hj'
    exact Or.inr ⟨rfl, Or.inr ⟨by simp, rfl⟩⟩
  | j :: js, hnd, j', hj' => by
    rw [List.map_cons, List.nodup_cons] at hnd
    obtain ⟨hheadnd, hndrest⟩ := hnd
    unfold addRbDetail at hj'
    split at hj'
    · rename_i hjc
      rcases List.mem_cons.mp hj' with hhead | htail
      · exact Or.inr ⟨by rw [hhead]; exact hjc, Or.inl
          ⟨j, List.mem_cons_self j js, hjc, hhead⟩⟩
      · left
        refine ⟨?_, List.mem_cons_of_mem j htail⟩
        intro hk
        exact hheadnd (hjc ▸ hk ▸ List.mem_map.mpr ⟨j', htail, rfl⟩)
    · rename_i hjc
      rcases List.mem_cons.mp hj' with hhead | htail
      · exact Or.inl ⟨by rw [hhead]; exact fun hc => hjc hc,
          hhead ▸ List.mem_cons_self j js⟩
      · rcases addRb_mem u c d js hndrest j' htail with
          ⟨hne, hmem⟩ | ⟨heq, ⟨q, hq, hqc, hq'⟩ | ⟨hcnot, hq'⟩⟩
        · exact Or.inl ⟨hne, List.mem_cons_of_mem j hmem⟩
        · exact Or.inr ⟨heq, Or.inl
            ⟨q, List.mem_cons_of_mem j hq, hqc, hq'⟩⟩
        · refine Or.inr ⟨heq, Or.inr ⟨?_, hq'⟩⟩
          rw [List.map_cons, List.mem_cons]
          rintro (hcj | hcjs)
          · exact hjc hcj.symm
          · exact hcnot hcjs

theorem detailsAtFlat_cons {V : Type} (u c : Nat) (d : String × V)
    (rest : List (Nat × Nat × (String × V))) (c' : Nat) :
    detailsAtFlat ((u, c, d) :: rest) c' =
      (if c = c' then [d] else []) ++ detailsAtFlat rest c' := by
  by_cases hcc : c = c'
  · subst hcc
    simp [detailsAtFlat, List.filter_cons]
  · simp [detailsAtFlat, List.filter_cons, hcc]

theorem rbFold_go {V : Type} :
    ∀ (l : List (Nat × Nat × (String × V))) (js : List (RbJournal V))
      (f : Nat → List (String × V)),
      (js.map RbJournal.created).Nodup →
      (∀ j ∈ js, j.details = f j.created) →
      (∀ c, c ∈ js.map RbJournal.created ↔ f c ≠ []) →
      ((l.foldl (fun js t => addRbDetail js t.1 t.2.1 t.2.2) js).map
          RbJournal.created).Nodup ∧
        (∀ j ∈ l.foldl (fun js t => addRbDetail js t.1 t.2.1 t.2.2) js,
          j.details = f j.created ++ detailsAtFlat l j.created) ∧
        (∀ c, (c ∈ (l.foldl (fun js t => addRbDetail js t.1 t.2.1 t.2.2)
            js).map RbJournal.created ↔
          (f c ≠ [] ∨ detailsAtFlat l c ≠ [])))
  | [], js, f, hnd, hdet, hiff => by
    refine ⟨hnd, ?_, ?_⟩
    · intro j hj
      simpa [detailsAtFlat] using hdet j hj
    · intro c
      simpa [detailsAtFlat] using hiff c
  | (u, c, d) :: rest, js, f, hnd, hdet, hiff => by
    have hnd1 := addRb_nodup u c d js hnd
    have hdet1 : ∀ j₁ ∈ addRbDetail js u c d,
        j₁.details = f j₁.created ++ (if c = j₁.created then [d]
          else []) := by
      intro j₁ hj₁
      rcases addRb_mem u c d js hnd j₁ hj₁ with
        ⟨hne, hmem⟩ | ⟨heq, ⟨j, hj, hjc, hj₁eq⟩ | ⟨hnotin, hj₁eq⟩⟩
      · rw [hdet j₁ hmem, if_neg (fun hc => hne hc.symm),
          List.append_nil]
      · have hd : j₁.details = j.details ++ [d] := by rw [hj₁eq]
        rw [hd, hdet j hj, hjc, heq, if_pos rfl]
      · have hfc : f c = [] := by
          by_contra hfc
          exact hnotin ((hiff c).mpr hfc)
        have hd : j₁.details = [d] := by rw [hj₁eq]
        rw [hd, heq, hfc, if_pos rfl, List.nil_append]
    have hiff1 : ∀ c',
        c' ∈ (addRbDetail js u c d).map RbJournal.created ↔
          (f c' ++ (if c = c' then [d] else [])) ≠ [] := by
      intro c'
      rw [addRb_map_created u c d js]
      by_cases hcc : c = c'
      · subst hcc
        have hrhs : (f c ++ if c = c then [d] else []) ≠ [] := by simp
        by_cases hc : c ∈ js.map RbJournal.created
        · rw [if_pos hc]
          exact iff_of_true hc hrhs
        · rw [if_neg hc]
          exact iff_of_true
            (List.mem_append_right _ (List.mem_singleton_self c)) hrhs
      · rw [if_neg hcc, List.append_nil]
        by_cases hc : c ∈ js.map RbJournal.created
        · rw [if_pos hc]
          exact hiff c'
        · rw [if_neg hc, List.mem_append, List.mem_singleton]
          constructor
          · rintro (h | h)
            · exact (hiff c').mp h
            · exact absurd h.symm hcc
          · intro h
            exact Or.inl ((hiff c').mpr h)
    obtain ⟨ih1, ih2, ih3⟩ := rbFold_go rest (addRbDetail js u c d)
      (fun c' => f c' ++ (if c = c' then [d] else [])) hnd1 hdet1 hiff1
    simp only [List.foldl_cons]
    refine ⟨ih1, ?_, ?_⟩
    · intro j hj
      rw [detailsAtFlat_cons, ← List.append_assoc]
      exact ih2 j hj
    · intro c'
      have h3 := ih3 c'
      rw [detailsAtFlat_cons]
      by_cases hcc : c = c'
      · subst hcc
        refine iff_of_true (h3.mpr (Or.inl (by simp))) (Or.inr (by simp))
      · simp only [if_neg hcc, List.append_nil] at h3
        simp only [if_neg hcc, List.nil_append]
        exact h3

/-- C7 counterexample: two coalesced details with the same timestamp but
different authors (users 1 and 2) are rebuilt into a single journal —
`_rebuild_journals` compares only `created_on`, never the author, and the
merged journal keeps the first detail's author. -/
theorem history_event_grouping_counterexample :
    rebuildJournals [("a", [⟨1, 10, (0 : Nat)⟩]), ("b", [⟨2, 10, 1⟩])] =
      [{ user := 1, created := 10, details := [("a", 0), ("b", 1)] }] ∧
    (1 : Nat) ≠ 2 :=
  ⟨rfl, by decide⟩

/-- C7 amended: coalesced details are grouped into history events by
timestamp alone — the rebuilt journals have pairwise distinct timestamps,
each journal holds exactly the details whose item carries its timestamp
(in iteration order), and every item lands in some journal; the author is
not part of the grouping key. -/
theorem history_event_grouping {V : Type}
    (m : List (String × List (RbItem V))) :
    ((rebuildJournals m).map RbJournal.created).Nodup ∧
    (∀ j ∈ rebuildJournals m, j.details = detailsAt m j.created) ∧
    (∀ pi ∈ m, ∀ it ∈ pi.2, ∃ j ∈ rebuildJournals m,
      j.created = it.created) := by
  have hflat : rebuildJournals m =
      (rbFlatten m).foldl (fun js t => addRbDetail js t.1 t.2.1 t.2.2)
        [] := rebuild_foldl_flatten m []
  obtain ⟨h1, h2, h3⟩ := rbFold_go (rbFlatten m) []
    (fun _ => ([] : List (String × V))) (by simp) (by simp) (by simp)
  refine ⟨?_, ?_, ?_⟩
  · rw [hflat]
    exact h1
  · intro j hj
    rw [hflat] at hj
    rw [detailsAt_flatten m j.created]
    simpa using h2 j hj
  · intro pi hpi it hit
    have hmem : (it.user, it.created, (pi.1, it.payload)) ∈ rbFlatten m :=
      List.mem_flatMap.mpr ⟨pi, hpi, List.mem_map.mpr ⟨it, hit, rfl⟩⟩
    have hne : detailsAtFlat (rbFlatten m) it.created ≠ [] := by
      have hin : (pi.1, it.payload) ∈
          detailsAtFlat (rbFlatten m) it.created :=
        List.mem_map.mpr ⟨_, List.mem_filter.mpr ⟨hmem, by simp⟩, rfl⟩
      exact List.ne_nil_of_mem hin
    have hc : it.created ∈ (rebuildJournals m).map RbJournal.created := by
      rw [hflat]
      exact (h3 it.created).mpr (Or.inr hne)
    obtain ⟨j, hj, hjc⟩ := List.mem_map.mp hc
    exact ⟨j, hj, hjc⟩

/-! ### Mapping resolver lemmas -/

theorem firstHit_eq_none_iff {TM W : Type} (f : TM → Option W) :
    ∀ l : List TM, firstHit f l = none ↔ ∀ tm ∈ l, f tm = none
  | [] => by simp [firstHit]
  | tm :: rest => by
    unfold firstHit
    cases hf : f tm with
    | some w => simp [hf]
    | none => simp [hf, firstHit_eq_none_iff f rest]

theorem alist.find_mem {κ β : Type} [DecidableEq κ] (k : κ) (w : β) :
    ∀ l : List (κ × β), alist.find k l = some w → (k, w) ∈ l
  | [], h => by simp [alist.find] at h
  | (k', w') :: rest, h => by
    rw [alist.find] at h
    split at h
    · rename_i hk
      rw [Option.some.injEq] at h
      subst hk
      subst h
      exact List.mem_cons_self _ _
    · exact List.mem_cons_of_mem _ (alist.find_mem k w rest h)

/-- The type mapping chosen by the interactive fallback is one of the
allowed type mappings of the resource's Redmine type. -/
theorem chosen_tm_mem {TM : Type} (tms : List TM) (choice : Nat) (tm : TM)
    (h : (if tms.length > 1 then tms.get? (choice - 1)
          else tms.getLast?) = some tm) : tm ∈ tms := by
  split at h
  · exact List.get?_mem h
  · exact List.mem_of_mem_getLast? h

/-- After the fallback records its answer under the chosen key, probing
the same scope and value finds exactly that answer. -/
theorem dynFirstHit_after_insert {P V TM W : Type} [DecidableEq P]
    [DecidableEq V] [DecidableEq TM] (dyn : DynTable P V TM W)
    (scope : Option P) (v : V) (ans : W) (tmc : TM) :
    ∀ tms : List TM, tmc ∈ tms →
      (∀ tm ∈ tms, alist.find (scope, v, tm) dyn = none) →
      dynFirstHit (((scope, v, tmc), ans) :: dyn) scope v tms =
        some (ans, tmc)
  | [], hmem, _ => absurd hmem (List.not_mem_nil tmc)
  | tm0 :: rest, hmem, hnone => by
    unfold dynFirstHit firstHit
    rw [alist.find]
    by_cases heq : tmc = tm0
    · subst heq
      rw [if_pos rfl]
    · rw [if_neg (fun hk => heq (congrArg (fun q => q.2.2) hk))]
      rw [hnone tm0 (List.mem_cons_self tm0 rest)]
      have hmem' : tmc ∈ rest := by
        rcases List.mem_cons.mp hmem with h | h
        · exact absurd h heq
        · exact h
      exact dynFirstHit_after_insert dyn scope v ans tmc rest hmem'
        (fun tm htm => hnone tm (List.mem_cons_of_mem tm0 htm))

/-- C3: the static configuration tables are probed before the dynamic
table — whenever some allowed type mapping has a static value for the
resource (first non-empty hit `(w, tm)`), the resolver returns that
static value, leaves the dynamic table unchanged and never prompts,
whatever the dynamic table holds. -/
theorem static_mapping_precedence {P V TM W : Type} [DecidableEq P]
    [DecidableEq V] [DecidableEq TM] (ej ii : Bool) (proj : W → W)
    (ctx : ResolveCtx P V TM W) (scope : Option P) (v : V)
    (pin : PromptInput TM W) (dyn : DynTable P V TM W) (w : W) (tm : TM)
    (hstat : firstHit (fun tm => ctx.static tm scope v) ctx.tms =
      some (w, tm)) :
    resolveResource ej ii proj ctx scope v pin dyn =
      some (postValue ej ii proj w, tm, dyn, false) := by
  unfold resolveResource
  rw [hstat]

/-- C3 witness: the static table maps value 5 to 7 while the dynamic
table holds 99 for the very same key; the resolver returns 7. -/
theorem static_mapping_precedence_witness :
    resolveResource false false id
        (⟨[0], fun _ _ _ => some 7⟩ : ResolveCtx Nat Nat Nat Nat)
        none 5 ⟨1, 42⟩ [(((none, 5, 0) : DynKey Nat Nat Nat), 99)] =
      some (7, 0, [(((none, 5, 0) : DynKey Nat Nat Nat), 99)], false) :=
  static_mapping_precedence false false id
    (⟨[0], fun _ _ _ => some 7⟩ : ResolveCtx Nat Nat Nat Nat)
    none 5 ⟨1, 42⟩ [(((none, 5, 0) : DynKey Nat Nat Nat), 99)] 7 0 rfl

/-- C2: the dynamic table is first-answer-wins — a resolution never
changes an existing binding, and resolving the same value and scope again
right after any resolution returns the identical value with no prompt and
no table change. -/
theorem dynamic_mapping_first_answer_wins {P V TM W : Type}
    [DecidableEq P] [DecidableEq V] [DecidableEq TM] (ej ii : Bool)
    (proj : W → W) (ctx : ResolveCtx P V TM W) (scope : Option P) (v : V)
    (pin pin' : PromptInput TM W) (dyn : DynTable P V TM W) :
    (∀ (k : DynKey P V TM) (w₀ : W)
        (out : W × TM × DynTable P V TM W × Bool),
      alist.find k dyn = some w₀ →
      resolveResource ej ii proj ctx scope v pin dyn = some out →
      alist.find k out.2.2.1 = some w₀) ∧
    (∀ out : W × TM × DynTable P V TM W × Bool,
      resolveResource ej ii proj ctx scope v pin dyn = some out →
      resolveResource ej ii proj ctx scope v pin' out.2.2.1 =
        some (out.1, out.2.1, out.2.2.1, false)) ∧
    (∀ (w : W) (tm : TM),
      firstHit (fun tm => ctx.static tm scope v) ctx.tms = none →
      dynFirstHit dyn scope v ctx.tms = some (w, tm) →
      resolveResource ej ii proj ctx scope v pin dyn =
        some (postValue ej ii proj w, tm, dyn, false)) := by
  refine ⟨?_, ?_, ?_⟩
  · intro k w₀ out hfind hres
    unfold resolveResource at hres
    split at hres
    · rw [Option.some.injEq] at hres
      rw [← hres]
      exact hfind
    · split at hres
      · rw [Option.some.injEq] at hres
        rw [← hres]
        exact hfind
      · rename_i hdynnone
        split at hres
        · exact absurd hres (by simp)
        · rename_i tmc hchoice
          rw [Option.some.injEq] at hres
          rw [← hres]
          simp only []
          rw [alist.find]
          rw [if_neg]
          · exact hfind
          · intro hk
            have htmc := chosen_tm_mem ctx.tms pin.choice tmc hchoice
            have hnone := (firstHit_eq_none_iff _ ctx.tms).mp hdynnone
            have h := hnone tmc htmc
            rw [hk] at h
            rw [h] at hfind
            exact Option.noConfusion hfind
  · intro out hres
    unfold resolveResource at hres
    split at hres
    · rename_i w tm hstat
      rw [Option.some.injEq] at hres
      rw [← hres]
      unfold resolveResource
      rw [hstat]
    · rename_i hstatnone
      split at hres
      · rename_i w tm hdyn
        rw [Option.some.injEq] at hres
        rw [← hres]
        unfold resolveResource
        rw [hstatnone]
        simp only []
        rw [hdyn]
      · rename_i hdynnone
        split at hres
        · exact absurd hres (by simp)
        · rename_i tmc hchoice
          rw [Option.some.injEq] at hres
          rw [← hres]
          unfold resolveResource
          rw [hstatnone]
          simp only []
          rw [dynFirstHit_after_insert dyn scope v pin.answer tmc ctx.tms
            (chosen_tm_mem ctx.tms pin.choice tmc hchoice)
            ((firstHit_eq_none_iff _ ctx.tms).mp hdynnone)]
  · intro w tm hstatnone hdyn
    unfold resolveResource
    rw [hstatnone]
    simp only []
    rw [hdyn]

/-- C2 witness: a run with one allowed type mapping; the existing binding
for value 8 survives a prompted resolution of value 7, resolving value 7
again returns the just-recorded 42 without prompting (ignoring the new
prompt input 99), and a plain dynamic hit returns the stored value with
no table change. -/
theorem dynamic_mapping_first_answer_wins_witness :
    alist.find ((none, 8, 0) : DynKey Nat Nat Nat)
        ((((none, 7, 0) : DynKey Nat Nat Nat), 42) ::
          [(((none, 8, 0) : DynKey Nat Nat Nat), 5)]) = some 5 ∧
    resolveResource false false id
        (⟨[0], fun _ _ _ => none⟩ : ResolveCtx Nat Nat Nat Nat) none 7
        ⟨1, 99⟩
        ((((none, 7, 0) : DynKey Nat Nat Nat), 42) ::
          [(((none, 8, 0) : DynKey Nat Nat Nat), 5)]) =
      some (42, 0,
        (((none, 7, 0) : DynKey Nat Nat Nat), 42) ::
          [(((none, 8, 0) : DynKey Nat Nat Nat), 5)], false) ∧
    resolveResource false false id
        (⟨[0], fun _ _ _ => none⟩ : ResolveCtx Nat Nat Nat Nat) none 7
        ⟨1, 99⟩ [(((none, 7, 0) : DynKey Nat Nat Nat), 42)] =
      some (42, 0, [(((none, 7, 0) : DynKey Nat Nat Nat), 42)], false) :=
  ⟨(dynamic_mapping_first_answer_wins false false id
      (⟨[0], fun _ _ _ => none⟩ : ResolveCtx Nat Nat Nat Nat) none 7
      ⟨1, 42⟩ ⟨1, 99⟩ [(((none, 8, 0) : DynKey Nat Nat Nat), 5)]).1
      ((none, 8, 0) : DynKey Nat Nat Nat) 5 _ rfl rfl,
   (dynamic_mapping_first_answer_wins false false id
      (⟨[0], fun _ _ _ => none⟩ : ResolveCtx Nat Nat Nat Nat) none 7
      ⟨1, 42⟩ ⟨1, 99⟩ [(((none, 8, 0) : DynKey Nat Nat Nat), 5)]).2.1
      _ rfl,
   (dynamic_mapping_first_answer_wins false false id
      (⟨[0], fun _ _ _ => none⟩ : ResolveCtx Nat Nat Nat Nat) none 7
      ⟨1, 99⟩ ⟨1, 99⟩ [(((none, 7, 0) : DynKey Nat Nat Nat), 42)]).2.2
      42 0 rfl rfl⟩

/-- C4: scoped and unscoped dynamic keys are disjoint — a lookup under a
scope reads none of the entries recorded under any other scope: the
dynamic probe misses entirely when every entry carries a different scope,
the probe result only depends on the entries of the probed scope, and the
resolution then falls through to the prompt. -/
theorem dynamic_scope_isolation {P V TM W : Type} [DecidableEq P]
    [DecidableEq V] [DecidableEq TM] (ej ii : Bool) (proj : W → W)
    (ctx : ResolveCtx P V TM W) (scope : Option P) (v : V)
    (pin : PromptInput TM W) (dyn : DynTable P V TM W)
    (hscopes : ∀ e ∈ dyn, e.1.1 ≠ scope) :
    dynFirstHit dyn scope v ctx.tms = none ∧
    (∀ dyn₂ : DynTable P V TM W,
      dynFirstHit dyn₂ scope v ctx.tms =
        dynFirstHit (dyn₂.filter (fun e => decide (e.1.1 = scope)))
          scope v ctx.tms) ∧
    ((∀ tm ∈ ctx.tms, ctx.static tm scope v = none) →
      ∀ out : W × TM × DynTable P V TM W × Bool,
        resolveResource ej ii proj ctx scope v pin dyn = some out →
        out.2.2.2 = true ∧ out.1 = postValue ej ii proj pin.answer) := by
  have hfindnone : ∀ tm, alist.find (scope, v, tm) dyn = none := by
    intro tm
    cases hf : alist.find (scope, v, tm) dyn with
    | none => rfl
    | some w =>
      have := alist.find_mem _ w dyn hf
      exact absurd rfl (hscopes _ this)
  have hfilter : ∀ (dyn₂ : DynTable P V TM W) (tm : TM),
      alist.find (scope, v, tm) dyn₂ =
        alist.find (scope, v, tm)
          (dyn₂.filter (fun e => decide (e.1.1 = scope))) := by
    intro dyn₂ tm
    induction dyn₂ with
    | nil => rfl
    | cons e rest ih =>
      obtain ⟨k', w'⟩ := e
      by_cases hk : k' = (scope, v, tm)
      · subst hk
        rw [List.filter_cons, if_pos (by simp)]
        rw [alist.find, if_pos rfl, alist.find, if_pos rfl]
      · rw [alist.find, if_neg hk]
        rw [List.filter_cons]
        split
        · rw [alist.find, if_neg hk]
          exact ih
        · exact ih
  refine ⟨?_, ?_, ?_⟩
  · exact (firstHit_eq_none_iff _ ctx.tms).mpr fun tm _ => hfindnone tm
  · intro dyn₂
    unfold dynFirstHit
    congr 1
    funext tm
    exact hfilter dyn₂ tm
  · intro hstatic out hres
    have hstatnone : firstHit (fun tm => ctx.static tm scope v) ctx.tms =
        none := (firstHit_eq_none_iff _ ctx.tms).mpr hstatic
    have hdynnone : dynFirstHit dyn scope v ctx.tms = none :=
      (firstHit_eq_none_iff _ ctx.tms).mpr fun tm _ => hfindnone tm
    unfold resolveResource at hres
    split at hres
    · rename_i w tm hstatHit
      rw [hstatnone] at hstatHit
      exact Option.noConfusion hstatHit
    · split at hres
      · rename_i w tm hdynHit
        rw [hdynnone] at hdynHit
        exact Option.noConfusion hdynHit
      · split at hres
        · exact absurd hres (by simp)
        · rename_i tmc hchoice
          rw [Option.some.injEq] at hres
          rw [← hres]
          exact ⟨rfl, rfl⟩

/-- C4 witness: a dynamic mapping recorded under project scope 2 is
invisible when resolving the same value 7 under project scope 1 — the
dynamic probe misses and the resolver prompts. -/
theorem dynamic_scope_isolation_witness :
    dynFirstHit [(((some 2, 7, 0) : DynKey Nat Nat Nat), 42)] (some 1) 7
        [0] = none ∧
    (((99 : Nat), (0 : Nat),
        ((((some 1, 7, 0) : DynKey Nat Nat Nat), (99 : Nat)) ::
          [(((some 2, 7, 0) : DynKey Nat Nat Nat), 42)]), true) :
      Nat × Nat × DynTable Nat Nat Nat Nat × Bool).2.2.2 = true :=
  ⟨(dynamic_scope_isolation false false id
      (⟨[0], fun _ _ _ => none⟩ : ResolveCtx Nat Nat Nat Nat) (some 1) 7
      ⟨1, 99⟩ [(((some 2, 7, 0) : DynKey Nat Nat Nat), 42)]
      (by decide)).1,
   ((dynamic_scope_isolation false false id
      (⟨[0], fun _ _ _ => none⟩ : ResolveCtx Nat Nat Nat Nat) (some 1) 7
      ⟨1, 99⟩ [(((some 2, 7, 0) : DynKey Nat Nat Nat), 42)]
      (by decide)).2.2 (fun tm _ => rfl) _ rfl).1⟩

/-! ### Coalescing pass lemmas -/

theorem backfillJD_newVal {V : Type} [DecidableEq V]
    (d jd : JDetail V) : (backfillJD d jd).newVal = d.newVal := by
  unfold backfillJD
  split
  · split <;> rfl
  · rfl

theorem backfillJD_created {V : Type} [DecidableEq V]
    (d jd : JDetail V) : (backfillJD d jd).created = d.created := by
  unfold backfillJD
  split
  · split <;> rfl
  · rfl

theorem resolveJD_created {V : Type} (lk : V → Option V) (d : RawJD V) :
    (resolveJD lk d).created = d.created := rfl

theorem repairJD_created {V : Type} [DecidableEq V] (live : Option V)
    (d : JDetail V) : (repairJD live d).created = d.created := by
  unfold repairJD
  split
  · split <;> rfl
  · rfl

/-- Where the items of the coalescing loop come from: each item of the
output was already in the accumulator, or is the running merged detail
(whose timestamp and new value the loop never changes — only the old
value is backfilled), or belongs to a chain started at one of the
remaining raw details, whose timestamp it shares. -/
theorem coalesceGo_out {V : Type} [DecidableEq V] (lk : V → Option V)
    (live : Option V) (tr : V → Bool) :
    ∀ (rest : List (RawJD V)) (running : Option (JDetail V))
      (acc : List (JDetail V)) (item : JDetail V),
      item ∈ coalesceGo lk live tr false running acc rest →
      item ∈ acc ∨
      (∃ d₀, running = some d₀ ∧ item.created = d₀.created ∧
        item.newVal = d₀.newVal) ∨
      item.created ∈ rest.map RawJD.created
  | [], running, acc, item, hitem => by
    unfold coalesceGo at hitem
    rcases List.mem_append.mp hitem with hacc | hleft
    · exact Or.inl hacc
    · cases running with
      | none =>
        exact absurd hleft (List.not_mem_nil item)
      | some d₀ =>
        rw [show (match some d₀ with
            | some d => if isValidJD tr d = true then [d] else []
            | (none : Option (JDetail V)) => []) =
          (if isValidJD tr d₀ = true then [d₀] else []) from rfl] at hleft
        split at hleft
        · rw [List.mem_singleton] at hleft
          exact Or.inr (Or.inl ⟨d₀, rfl, by rw [hleft], by rw [hleft]⟩)
        · exact absurd hleft (List.not_mem_nil item)
  | jd :: rest, running, acc, item, hitem => by
    unfold coalesceGo at hitem
    simp only [Bool.false_eq_true, if_false] at hitem
    split at hitem
    · rcases coalesceGo_out lk live tr rest none _ item hitem with
        hacc | ⟨d₀, hd₀, -, -⟩ | hcr
      · rcases List.mem_append.mp hacc with hacc' | hemit
        · exact Or.inl hacc'
        · have hr : item =
              backfillJD ((running.getD (resolveJD lk jd)))
                (resolveJD lk jd) := by
            split at hemit
            · rw [List.mem_singleton] at hemit
              exact hemit
            · exact absurd hemit (List.not_mem_nil item)
          cases hrun : running with
          | none =>
            refine Or.inr (Or.inr ?_)
            rw [List.map_cons, List.mem_cons]
            left
            rw [hr, hrun]
            rw [show (Option.getD (none : Option (JDetail V))
              (resolveJD lk jd)) = resolveJD lk jd from rfl]
            rw [backfillJD_created, resolveJD_created]
          | some d₀ =>
            refine Or.inr (Or.inl ⟨d₀, rfl, ?_, ?_⟩)
            · rw [hr, hrun]
              rw [show (Option.getD (some d₀) (resolveJD lk jd)) = d₀
                from rfl]
              rw [backfillJD_created]
            · rw [hr, hrun]
              rw [show (Option.getD (some d₀) (resolveJD lk jd)) = d₀
                from rfl]
              rw [backfillJD_newVal]
      · exact absurd hd₀ (by simp)
      · refine Or.inr (Or.inr ?_)
        rw [List.map_cons, List.mem_cons]
        exact Or.inr hcr
    · rcases coalesceGo_out lk live tr rest _ _ item hitem with
        hacc | ⟨d₀, hd₀, hcr, hnv⟩ | hcr
      · exact Or.inl hacc
      · rw [Option.some.injEq] at hd₀
        subst hd₀
        cases hrun : running with
        | none =>
          refine Or.inr (Or.inr ?_)
          rw [List.map_cons, List.mem_cons]
          left
          rw [hcr, hrun]
          rw [show (Option.getD (none : Option (JDetail V))
            (resolveJD lk jd)) = resolveJD lk jd from rfl]
          rw [backfillJD_created, resolveJD_created]
        | some d₁ =>
          refine Or.inr (Or.inl ⟨d₁, rfl, ?_, ?_⟩)
          · rw [hcr, hrun]
            rw [show (Option.getD (some d₁) (resolveJD lk jd)) = d₁
              from rfl]
            rw [backfillJD_created]
          · rw [hnv, hrun]
            rw [show (Option.getD (some d₁) (resolveJD lk jd)) = d₁
              from rfl]
            rw [backfillJD_newVal]
      · refine Or.inr (Or.inr ?_)
        rw [List.map_cons, List.mem_cons]
        exact Or.inr hcr

/-- C5: end-of-chain repair — when the chronologically last journal
detail of a property has a new value that resolves to nothing (a dangling
integer reference) and the issue's live value for the field exists, every
coalesced item carrying that detail's timestamp has the live value as its
resolved new ("to") value, not the unresolved raw one. -/
theorem end_of_chain_repair {V : Type} [DecidableEq V]
    (lk : V → Option V) (live : Option V) (tr : V → Bool)
    (init : List (RawJD V)) (d : RawJD V) (r v : V)
    (hnew : d.newRaw = some r) (hlk : lk r = none)
    (hlive : live = some v)
    (hchron : ∀ jd ∈ init, jd.created ≠ d.created) :
    ∀ item ∈ coalesceJournalDetails lk live tr (init ++ [d]),
      item.created = d.created → item.newVal = some (some v) := by
  subst hlive
  intro item hitem hc
  have hcond : (resolveJD lk d).newVal = some none := by
    unfold resolveJD
    simp [hnew, hlk]
  have hjd2 : (repairJD (some v) (resolveJD lk d)).newVal =
      some (some v) := by
    unfold repairJD
    rw [if_pos hcond]
  have hjd2c : (repairJD (some v) (resolveJD lk d)).created =
      d.created := by
    rw [repairJD_created, resolveJD_created]
  have hnochron : item.created ∉ init.reverse.map RawJD.created := by
    intro hmem
    rw [List.map_reverse, List.mem_reverse] at hmem
    obtain ⟨jd, hjd, hjdc⟩ := List.mem_map.mp hmem
    exact hchron jd hjd (by rw [hjdc, hc])
  unfold coalesceJournalDetails at hitem
  rw [List.reverse_append, List.reverse_singleton,
    List.singleton_append] at hitem
  have hstep : coalesceGo lk (some v) tr true none []
      (d :: init.reverse) =
      (if isValidJD tr (backfillJD (repairJD (some v) (resolveJD lk d))
          (repairJD (some v) (resolveJD lk d))) = true then
        coalesceGo lk (some v) tr false none
          (if emitOK (backfillJD (repairJD (some v) (resolveJD lk d))
              (repairJD (some v) (resolveJD lk d))) = true then
            [backfillJD (repairJD (some v) (resolveJD lk d))
              (repairJD (some v) (resolveJD lk d))]
          else []) init.reverse
      else
        coalesceGo lk (some v) tr false
          (some (backfillJD (repairJD (some v) (resolveJD lk d))
            (repairJD (some v) (resolveJD lk d)))) []
          init.reverse) := rfl
  rw [hstep] at hitem
  have hr0nv : (backfillJD (repairJD (some v) (resolveJD lk d))
      (repairJD (some v) (resolveJD lk d))).newVal = some (some v) := by
    rw [backfillJD_newVal, hjd2]
  split at hitem
  · rcases coalesceGo_out lk (some v) tr init.reverse none _ item hitem
      with hacc | ⟨d₀, hd₀, -, -⟩ | hcr
    · split at hacc
      · rw [List.mem_singleton] at hacc
        rw [hacc, hr0nv]
      · exact absurd hacc (List.not_mem_nil item)
    · exact absurd hd₀ (by simp)
    · exact absurd hcr hnochron
  · rcases coalesceGo_out lk (some v) tr init.reverse _ _ item hitem
      with hacc | ⟨d₀, hd₀, -, hnv⟩ | hcr
    · exact absurd hacc (List.not_mem_nil item)
    · rw [Option.some.injEq] at hd₀
      rw [hnv, ← hd₀, hr0nv]
    · exact absurd hcr hnochron

/-- C5 witness: a single journal detail with a dangling new value
(resolves to nothing) and live value 5 — the coalesced item's "to" value
is the live value. -/
theorem end_of_chain_repair_witness :
    (⟨none, some (some 5), 1, 10⟩ : JDetail Nat).newVal =
      some (some 5) :=
  end_of_chain_repair (fun _ : Nat => none) (some 5) (fun _ => true) []
    (⟨none, some 0, 1, 10⟩ : RawJD Nat) 0 5 rfl rfl rfl (by simp)
    (⟨none, some (some 5), 1, 10⟩ : JDetail Nat) (by decide) rfl

end Redmine2Jira
